import Mathlib

/-!
Shallow embedding of the integer arithmetic kernel in `dda_maths.c` of the
Teacup firmware, together with proofs about the routines `muldivQR`,
`approx_distance`, `approx_distance_3`, `int_sqrt`, `int_inv_sqrt`,
`acc_ramp_len` and `int_sqr`.

`uint32_t` values are natural numbers, with an explicit `% 2 ^ 32` wherever
the C computation can wrap; `uint16_t` and `uint8_t` intermediates likewise
carry `% 2 ^ 16` and `% 2 ^ 8`.  `int32_t` values are integers, with the
two's-complement wrap made explicit where the source narrows a product.
-/

namespace DdaMaths

/-- Wrapping `uint32_t` subtraction `a - b` for `a b < 2 ^ 32`: wraps modulo `2 ^ 32`. -/
def usub32 (a b : ℕ) : ℕ := (a + 2 ^ 32 - b) % 2 ^ 32

/-- Two's-complement wrap of an integer into the `int32_t` range, modelling
32-bit signed arithmetic on the target. -/
def wrap32 (x : ℤ) : ℤ := (x + 2 ^ 31) % 2 ^ 32 - 2 ^ 31

/-- Function `int_sqr` from `dda_maths.c`: `return a * a;`.  Both operands are
`int32_t`, so the product is computed in 32-bit signed arithmetic and only
afterwards widened to the `int64_t` return type. -/
def int_sqr (a : ℤ) : ℤ := wrap32 (a * a)

/-- Function `approx_distance` from `dda_maths.c`, all arithmetic `uint32_t`. -/
def approx_distance (dx dy : ℕ) : ℕ :=
  if dx = 0 ∨ dy = 0 then (dx + dy) % 2 ^ 32
  else
    let mn := if dx < dy then dx else dy
    let mx := if dx < dy then dy else dx
    let approx := (mx * 1007 + mn * 441) % 2 ^ 32
    let approx :=
      if mx < (mn <<< 4) % 2 ^ 32 then usub32 approx ((mx * 40) % 2 ^ 32) else approx
    ((approx + 512) % 2 ^ 32) >>> 10

/-- Function `approx_distance_3` from `dda_maths.c`.  The two `if` ladders assigning
`min`, `med`, `max` are reproduced exactly (including the swapped roles of
`min` and `med` in the first comparison of the source). -/
def approx_distance_3 (dx dy dz : ℕ) : ℕ :=
  let mn1 := if dx < dy then dy else dx
  let md1 := if dx < dy then dx else dy
  let mn := if dz < mn1 then dz else mn1
  let md := if dz < mn1 then mn1 else if dz < md1 then dz else md1
  let mx := if dz < mn1 then md1 else if dz < md1 then md1 else dz
  let approx := (mx * 860 + md * 851 + mn * 520) % 2 ^ 32
  let approx :=
    if mx < (md <<< 1) % 2 ^ 32 then usub32 approx ((mx * 294) % 2 ^ 32) else approx
  let approx :=
    if mx < (mn <<< 2) % 2 ^ 32 then usub32 approx ((mx * 113) % 2 ^ 32) else approx
  let approx :=
    if md < (mn <<< 2) % 2 ^ 32 then usub32 approx ((md * 40) % 2 ^ 32) else approx
  ((approx + 512) % 2 ^ 32) >>> 10

/-- Function `acc_ramp_len` from `dda_maths.c`.  `ACCELERATION` is a build-time
configuration constant, passed here as an explicit first parameter.  All
arithmetic is `uint32_t`, i.e. modulo `2 ^ 32`. -/
def acc_ramp_len (ACCELERATION feedrate steps_per_m : ℕ) : ℕ :=
  ((feedrate * feedrate) % 2 ^ 32) / (((7200000 * ACCELERATION) % 2 ^ 32) / steps_per_m)

/-- One trial-bit step of the staged binary searches in `int_sqrt` and
`int_inv_sqrt`: set bit `w`, square (the square is stored in a variable of
modulus `sq`), and clear the bit again if the square exceeds `N`. -/
def sqrtStep (N sq x w : ℕ) : ℕ :=
  let x1 := x ||| w
  if x1 * x1 % sq > N then x1 ^^^ w else x1

/-- Four trial-bit steps: the unrolled `for (j = 0x8; j; j >>= 1)` loops. -/
def sqrtLoop4 (N sq x0 : ℕ) : ℕ :=
  sqrtStep N sq (sqrtStep N sq (sqrtStep N sq (sqrtStep N sq x0 8) 4) 2) 1

/-- Eight trial-bit steps: the unrolled `for (i = 0x80; i; i >>= 1)` loops. -/
def sqrtLoop8 (N sq x0 : ℕ) : ℕ :=
  sqrtLoop4 N sq
    (sqrtStep N sq (sqrtStep N sq (sqrtStep N sq (sqrtStep N sq x0 128) 64) 32) 16)

/-- Function `int_sqrt` from `dda_maths.c`: staged bitwise square root.  `b` and `c`
are the `uint16_t` and `uint8_t` truncations of `a >> 16` and `b >> 8`; the
three loops run at 8-, 16- and 32-bit square width. -/
def int_sqrt (a : ℕ) : ℕ :=
  let b := (a >>> 16) % 2 ^ 16
  let c := (b >>> 8) % 2 ^ 8
  let z := sqrtLoop4 c (2 ^ 8) 0
  let x := sqrtLoop4 b (2 ^ 16) ((z <<< 4) % 2 ^ 16)
  sqrtLoop8 a (2 ^ 32) ((x <<< 8) % 2 ^ 16)

/-- Function `int_inv_sqrt` from `dda_maths.c`: `q = ((uint32_t)(0xFFFFU / a)) << 8`,
then the same staged search against `q`.  The first loop squares into a
`uint16_t` and compares against `q >> 8`, the second squares into a
`uint32_t` and compares against `q`. -/
def int_inv_sqrt (a : ℕ) : ℕ :=
  let q := ((65535 / a) <<< 8) % 2 ^ 32
  let z := sqrtLoop8 (q >>> 8) (2 ^ 16) 0
  sqrtLoop4 q (2 ^ 32) ((z <<< 4) % 2 ^ 16)

/-- One iteration of the `while (multiplicand)` body of `muldivQR`, as a step
function on the state `(multiplicand, qn, rn, quotient, remainder)`.  All five
components are `uint32_t` (the multiplicand has already been replaced by its
absolute value). -/
def mdStep (divisor m qn rn quotient remainder : ℕ) : ℕ × ℕ × ℕ × ℕ × ℕ :=
  let qr :=
    if m % 2 = 1 then
      let quotient := (quotient + qn) % 2 ^ 32
      let remainder := (remainder + rn) % 2 ^ 32
      if remainder ≥ divisor then ((quotient + 1) % 2 ^ 32, remainder - divisor)
      else (quotient, remainder)
    else (quotient, remainder)
  let m' := m >>> 1
  let qn' := (qn <<< 1) % 2 ^ 32
  let rn' := (rn <<< 1) % 2 ^ 32
  let qnrn := if rn' ≥ divisor then ((qn' + 1) % 2 ^ 32, rn' - divisor) else (qn', rn')
  (m', qnrn.1, qnrn.2, qr.1, qr.2)

/-- The `while (multiplicand)` loop of `muldivQR`.  The fuel argument bounds
the iteration count; since the multiplicand is a `uint32_t` value the C loop
performs at most 32 iterations, so fuel 32 is exact. -/
def mdLoop (divisor : ℕ) : ℕ → ℕ → ℕ → ℕ → ℕ → ℕ → ℕ × ℕ
  | 0, _, _, _, quotient, remainder => (quotient, remainder)
  | fuel + 1, m, qn, rn, quotient, remainder =>
    if m = 0 then (quotient, remainder)
    else
      let s := mdStep divisor m qn rn quotient remainder
      mdLoop divisor fuel s.1 s.2.1 s.2.2.1 s.2.2.2.1 s.2.2.2.2

/-- Function `muldivQR` from `dda_maths.c`: shift-and-add multiply-divide on the
precomputed quotient/remainder pair, followed by rounding and sign
restoration. -/
def muldivQR (multiplicand : ℤ) (qn rn divisor : ℕ) : ℤ :=
  let negative := multiplicand < 0
  let m := multiplicand.natAbs
  let qr := mdLoop divisor 32 m qn rn 0 0
  let quotient := if qr.2 > divisor / 2 then (qr.1 + 1) % 2 ^ 32 else qr.1
  if negative then -(quotient : ℤ) else (quotient : ℤ)

/-! ### Trial-bit lemmas for the staged binary searches -/

/-- Setting a bit below all bits of `x` is addition. -/
lemma two_pow_mul_lor (k c : ℕ) :
    2 ^ (k + 1) * c ||| 2 ^ k = 2 ^ (k + 1) * c + 2 ^ k := by
  apply Nat.eq_of_testBit_eq
  intro j
  have hb : 2 ^ k < 2 ^ (k + 1) := Nat.pow_lt_pow_right (by norm_num) (Nat.lt_succ_self k)
  rw [Nat.testBit_lor, Nat.testBit_mul_pow_two_add c hb j, Nat.testBit_mul_pow_two]
  rcases Nat.lt_or_ge j (k + 1) with hj | hj
  · rw [if_pos hj]
    have h1 : ¬ (k + 1 ≤ j) := Nat.not_le.mpr hj
    simp [h1]
  · rw [if_neg (Nat.not_lt.mpr hj)]
    have h2 : k ≠ j := by omega
    simp [hj, Nat.testBit_two_pow_of_ne h2]

/-- Clearing a bit below all other set bits of the value is subtraction. -/
lemma two_pow_mul_add_xor (k c : ℕ) :
    (2 ^ (k + 1) * c + 2 ^ k) ^^^ 2 ^ k = 2 ^ (k + 1) * c := by
  apply Nat.eq_of_testBit_eq
  intro j
  have hb : 2 ^ k < 2 ^ (k + 1) := Nat.pow_lt_pow_right (by norm_num) (Nat.lt_succ_self k)
  rw [Nat.testBit_xor, Nat.testBit_mul_pow_two_add c hb j, Nat.testBit_mul_pow_two]
  rcases Nat.lt_or_ge j (k + 1) with hj | hj
  · rw [if_pos hj]
    have h1 : ¬ (k + 1 ≤ j) := Nat.not_le.mpr hj
    simp [h1]
  · rw [if_neg (Nat.not_lt.mpr hj)]
    have h2 : k ≠ j := by omega
    simp [hj, Nat.testBit_two_pow_of_ne h2]

/-- Invariant preservation for one trial-bit step `sqrtStep N sq x (2 ^ k)`:
if `x` is a multiple of `2 ^ (k+1)` bracketing `N` at granularity `2 ^ (k+1)`
and the cap `M` keeps the trial square below the square's modulus `sq`, the
step halves the bracket to granularity `2 ^ k`. -/
lemma sqrtStep_inv (N sq M x k w : ℕ) (hw : w = 2 ^ k) (hd : 2 ^ (k + 1) ∣ x)
    (hcap : x + 2 ^ (k + 1) ≤ M) (hsq : M * M ≤ sq)
    (h1 : x * x ≤ N) (h2 : N < (x + 2 ^ (k + 1)) * (x + 2 ^ (k + 1))) :
    2 ^ k ∣ sqrtStep N sq x w ∧ sqrtStep N sq x w + 2 ^ k ≤ M ∧
      sqrtStep N sq x w * sqrtStep N sq x w ≤ N ∧
      N < (sqrtStep N sq x w + 2 ^ k) * (sqrtStep N sq x w + 2 ^ k) := by
  subst hw
  obtain ⟨c, hc⟩ := hd
  have hp : (0 : ℕ) < 2 ^ k := pow_pos (by norm_num) k
  have hpow : (2 : ℕ) ^ (k + 1) = 2 ^ k + 2 ^ k := by rw [Nat.pow_succ]; omega
  have hlor : x ||| 2 ^ k = x + 2 ^ k := by rw [hc]; exact two_pow_mul_lor k c
  have hxor : (x + 2 ^ k) ^^^ 2 ^ k = x := by rw [hc]; exact two_pow_mul_add_xor k c
  have hdk : 2 ^ k ∣ x := dvd_trans ⟨2, by rw [Nat.pow_succ]⟩ ⟨c, hc⟩
  have hlt : x + 2 ^ k < M := by omega
  have hmodeq : (x + 2 ^ k) * (x + 2 ^ k) % sq = (x + 2 ^ k) * (x + 2 ^ k) := by
    apply Nat.mod_eq_of_lt
    calc (x + 2 ^ k) * (x + 2 ^ k)
        < M * M := mul_lt_mul'' hlt hlt (Nat.zero_le _) (Nat.zero_le _)
    _ ≤ sq := hsq
  simp only [sqrtStep, hlor, hmodeq]
  by_cases hgt : (x + 2 ^ k) * (x + 2 ^ k) > N
  · rw [if_pos hgt, hxor]
    exact ⟨hdk, by omega, h1, hgt⟩
  · rw [if_neg hgt]
    push_neg at hgt
    refine ⟨dvd_add hdk dvd_rfl, by omega, hgt, ?_⟩
    have he : x + 2 ^ k + 2 ^ k = x + 2 ^ (k + 1) := by omega
    rw [he]
    exact h2

/-- Running the four-step loop on a bracket of granularity `2 ^ 4` produces
the floor square root of `N` (relative to the bracket), below the cap `M`. -/
lemma sqrtLoop4_inv (N sq M x0 : ℕ) (hd : 2 ^ 4 ∣ x0) (hcap : x0 + 2 ^ 4 ≤ M)
    (hsq : M * M ≤ sq) (h1 : x0 * x0 ≤ N) (h2 : N < (x0 + 2 ^ 4) * (x0 + 2 ^ 4)) :
    sqrtLoop4 N sq x0 * sqrtLoop4 N sq x0 ≤ N ∧
      N < (sqrtLoop4 N sq x0 + 1) * (sqrtLoop4 N sq x0 + 1) ∧
      sqrtLoop4 N sq x0 < M := by
  obtain ⟨d3, c3, a3, b3⟩ := sqrtStep_inv N sq M x0 3 8 rfl hd hcap hsq h1 h2
  obtain ⟨d2, c2, a2, b2⟩ := sqrtStep_inv N sq M _ 2 4 rfl d3 c3 hsq a3 b3
  obtain ⟨d1, c1, a1, b1⟩ := sqrtStep_inv N sq M _ 1 2 rfl d2 c2 hsq a2 b2
  obtain ⟨d0, c0, a0, b0⟩ := sqrtStep_inv N sq M _ 0 1 rfl d1 c1 hsq a1 b1
  exact ⟨a0, b0, by simpa using c0⟩

/-- Running the eight-step loop on a bracket of granularity `2 ^ 8` produces
the floor square root of `N` (relative to the bracket), below the cap `M`. -/
lemma sqrtLoop8_inv (N sq M x0 : ℕ) (hd : 2 ^ 8 ∣ x0) (hcap : x0 + 2 ^ 8 ≤ M)
    (hsq : M * M ≤ sq) (h1 : x0 * x0 ≤ N) (h2 : N < (x0 + 2 ^ 8) * (x0 + 2 ^ 8)) :
    sqrtLoop8 N sq x0 * sqrtLoop8 N sq x0 ≤ N ∧
      N < (sqrtLoop8 N sq x0 + 1) * (sqrtLoop8 N sq x0 + 1) ∧
      sqrtLoop8 N sq x0 < M := by
  obtain ⟨d7, c7, a7, b7⟩ := sqrtStep_inv N sq M x0 7 128 rfl hd hcap hsq h1 h2
  obtain ⟨d6, c6, a6, b6⟩ := sqrtStep_inv N sq M _ 6 64 rfl d7 c7 hsq a7 b7
  obtain ⟨d5, c5, a5, b5⟩ := sqrtStep_inv N sq M _ 5 32 rfl d6 c6 hsq a6 b6
  obtain ⟨d4, c4, a4, b4⟩ := sqrtStep_inv N sq M _ 4 16 rfl d5 c5 hsq a5 b5
  exact sqrtLoop4_inv N sq M _ d4 c4 hsq a4 b4

/-- The function `int_sqrt` computes the floor square root of every 32-bit input. -/
lemma int_sqrt_bracket (a : ℕ) (ha : a < 2 ^ 32) :
    int_sqrt a * int_sqrt a ≤ a ∧ a < (int_sqrt a + 1) * (int_sqrt a + 1) := by
  have h16 : (0 : ℕ) < 2 ^ 16 := by norm_num
  have h8 : (0 : ℕ) < 2 ^ 8 := by norm_num
  have hbb : a / 2 ^ 16 < 2 ^ 16 := Nat.div_lt_of_lt_mul (by
    calc a < 2 ^ 32 := ha
    _ = 2 ^ 16 * 2 ^ 16 := by norm_num)
  have hcc : a / 2 ^ 16 / 2 ^ 8 < 2 ^ 8 := Nat.div_lt_of_lt_mul (by
    calc a / 2 ^ 16 < 2 ^ 16 := hbb
    _ = 2 ^ 8 * 2 ^ 8 := by norm_num)
  have hb : (a >>> 16) % 2 ^ 16 = a / 2 ^ 16 := by
    rw [Nat.shiftRight_eq_div_pow]; exact Nat.mod_eq_of_lt hbb
  have hc : ((a / 2 ^ 16) >>> 8) % 2 ^ 8 = a / 2 ^ 16 / 2 ^ 8 := by
    rw [Nat.shiftRight_eq_div_pow]; exact Nat.mod_eq_of_lt hcc
  obtain ⟨hz1, hz2, hz3⟩ := sqrtLoop4_inv (a / 2 ^ 16 / 2 ^ 8) (2 ^ 8) 16 0
    (dvd_zero _) (by norm_num) (by norm_num) (Nat.zero_le _)
    (by have h := hcc; norm_num at h ⊢; omega)
  set z := sqrtLoop4 (a / 2 ^ 16 / 2 ^ 8) (2 ^ 8) 0 with hzdef
  have hzc : z * 2 ^ 4 + 2 ^ 4 ≤ 2 ^ 8 := by
    have h := hz3; norm_num at h ⊢; omega
  have hq1 : z * 2 ^ 4 * (z * 2 ^ 4) ≤ a / 2 ^ 16 := by
    have e1 : z * 2 ^ 4 * (z * 2 ^ 4) = z * z * 2 ^ 8 := by ring
    rw [e1]
    calc z * z * 2 ^ 8 ≤ a / 2 ^ 16 / 2 ^ 8 * 2 ^ 8 := Nat.mul_le_mul_right _ hz1
    _ ≤ a / 2 ^ 16 := Nat.div_mul_le_self _ _
  have hq2 : a / 2 ^ 16 < (z * 2 ^ 4 + 2 ^ 4) * (z * 2 ^ 4 + 2 ^ 4) := by
    have e2 : (z * 2 ^ 4 + 2 ^ 4) * (z * 2 ^ 4 + 2 ^ 4) = (z + 1) * (z + 1) * 2 ^ 8 := by
      ring
    rw [e2]
    have h4 : a / 2 ^ 16 < (a / 2 ^ 16 / 2 ^ 8 + 1) * 2 ^ 8 := by
      have h5 := @Nat.lt_div_mul_add (a / 2 ^ 16) (2 ^ 8) h8
      have e : (a / 2 ^ 16 / 2 ^ 8 + 1) * 2 ^ 8 = a / 2 ^ 16 / 2 ^ 8 * 2 ^ 8 + 2 ^ 8 := by
        ring
      rw [e]; exact h5
    calc a / 2 ^ 16 < (a / 2 ^ 16 / 2 ^ 8 + 1) * 2 ^ 8 := h4
    _ ≤ (z + 1) * (z + 1) * 2 ^ 8 := Nat.mul_le_mul_right _ hz2
  obtain ⟨hx1, hx2, hx3⟩ := sqrtLoop4_inv (a / 2 ^ 16) (2 ^ 16) (2 ^ 8) (z * 2 ^ 4)
    (dvd_mul_left _ _) hzc (by norm_num) hq1 hq2
  set x1 := sqrtLoop4 (a / 2 ^ 16) (2 ^ 16) (z * 2 ^ 4) with hx1def
  have hxc : x1 * 2 ^ 8 + 2 ^ 8 ≤ 2 ^ 16 := by
    have h := hx3; norm_num at h ⊢; omega
  have hr1 : x1 * 2 ^ 8 * (x1 * 2 ^ 8) ≤ a := by
    have e1 : x1 * 2 ^ 8 * (x1 * 2 ^ 8) = x1 * x1 * 2 ^ 16 := by ring
    rw [e1]
    calc x1 * x1 * 2 ^ 16 ≤ a / 2 ^ 16 * 2 ^ 16 := Nat.mul_le_mul_right _ hx1
    _ ≤ a := Nat.div_mul_le_self _ _
  have hr2 : a < (x1 * 2 ^ 8 + 2 ^ 8) * (x1 * 2 ^ 8 + 2 ^ 8) := by
    have e2 : (x1 * 2 ^ 8 + 2 ^ 8) * (x1 * 2 ^ 8 + 2 ^ 8) = (x1 + 1) * (x1 + 1) * 2 ^ 16 := by
      ring
    rw [e2]
    have h4 : a < (a / 2 ^ 16 + 1) * 2 ^ 16 := by
      have h5 := @Nat.lt_div_mul_add a (2 ^ 16) h16
      have e : (a / 2 ^ 16 + 1) * 2 ^ 16 = a / 2 ^ 16 * 2 ^ 16 + 2 ^ 16 := by ring
      rw [e]; exact h5
    calc a < (a / 2 ^ 16 + 1) * 2 ^ 16 := h4
    _ ≤ (x1 + 1) * (x1 + 1) * 2 ^ 16 := Nat.mul_le_mul_right _ hx2
  obtain ⟨hs1, hs2, _⟩ := sqrtLoop8_inv a (2 ^ 32) (2 ^ 16) (x1 * 2 ^ 8)
    (dvd_mul_left _ _) hxc (by norm_num) hr1 hr2
  have hzs : (z <<< 4) % 2 ^ 16 = z * 2 ^ 4 := by
    rw [Nat.shiftLeft_eq]
    apply Nat.mod_eq_of_lt
    have h := hz3; norm_num at h ⊢; omega
  have hxs : (x1 <<< 8) % 2 ^ 16 = x1 * 2 ^ 8 := by
    rw [Nat.shiftLeft_eq]
    apply Nat.mod_eq_of_lt
    have h := hx3; norm_num at h ⊢; omega
  have heq : int_sqrt a = sqrtLoop8 a (2 ^ 32) (x1 * 2 ^ 8) := by
    simp only [int_sqrt]
    rw [hb, hc, ← hzdef, hzs, ← hx1def, hxs]
  rw [heq]
  exact ⟨hs1, hs2⟩

/-- The function `int_inv_sqrt` computes the floor square root of `(0xFFFF / a) << 8`,
for every positive `a`. -/
lemma int_inv_sqrt_bracket (a : ℕ) (ha0 : 0 < a) :
    int_inv_sqrt a * int_inv_sqrt a ≤ 65535 / a * 2 ^ 8 ∧
      65535 / a * 2 ^ 8 < (int_inv_sqrt a + 1) * (int_inv_sqrt a + 1) := by
  have hqle : 65535 / a ≤ 65535 := Nat.div_le_self _ _
  have hqmod : ((65535 / a) <<< 8) % 2 ^ 32 = 65535 / a * 2 ^ 8 := by
    rw [Nat.shiftLeft_eq]
    apply Nat.mod_eq_of_lt
    calc 65535 / a * 2 ^ 8 ≤ 65535 * 2 ^ 8 := Nat.mul_le_mul_right _ hqle
    _ < 2 ^ 32 := by norm_num
  have hq8 : (65535 / a * 2 ^ 8) >>> 8 = 65535 / a := by
    rw [Nat.shiftRight_eq_div_pow]
    exact Nat.mul_div_cancel _ (by norm_num)
  obtain ⟨hz1, hz2, hz3⟩ := sqrtLoop8_inv (65535 / a) (2 ^ 16) (2 ^ 8) 0
    (dvd_zero _) (by norm_num) (by norm_num) (Nat.zero_le _)
    (by have h := hqle; norm_num at h ⊢; omega)
  set z := sqrtLoop8 (65535 / a) (2 ^ 16) 0 with hzdef
  have hzc : z * 2 ^ 4 + 2 ^ 4 ≤ 2 ^ 12 := by
    have h := hz3; norm_num at h ⊢; omega
  have hq1 : z * 2 ^ 4 * (z * 2 ^ 4) ≤ 65535 / a * 2 ^ 8 := by
    have e1 : z * 2 ^ 4 * (z * 2 ^ 4) = z * z * 2 ^ 8 := by ring
    rw [e1]
    exact Nat.mul_le_mul_right _ hz1
  have hq2 : 65535 / a * 2 ^ 8 < (z * 2 ^ 4 + 2 ^ 4) * (z * 2 ^ 4 + 2 ^ 4) := by
    have e2 : (z * 2 ^ 4 + 2 ^ 4) * (z * 2 ^ 4 + 2 ^ 4) = (z + 1) * (z + 1) * 2 ^ 8 := by
      ring
    rw [e2]
    calc 65535 / a * 2 ^ 8 < (65535 / a + 1) * 2 ^ 8 :=
      mul_lt_mul_of_pos_right (Nat.lt_succ_self _) (by norm_num)
    _ ≤ (z + 1) * (z + 1) * 2 ^ 8 := Nat.mul_le_mul_right _ hz2
  obtain ⟨hx1, hx2, _⟩ := sqrtLoop4_inv (65535 / a * 2 ^ 8) (2 ^ 32) (2 ^ 12)
    (z * 2 ^ 4) (dvd_mul_left _ _) hzc (by norm_num) hq1 hq2
  have hzs : (z <<< 4) % 2 ^ 16 = z * 2 ^ 4 := by
    rw [Nat.shiftLeft_eq]
    apply Nat.mod_eq_of_lt
    have h := hz3; norm_num at h ⊢; omega
  have heq : int_inv_sqrt a = sqrtLoop4 (65535 / a * 2 ^ 8) (2 ^ 32) (z * 2 ^ 4) := by
    simp only [int_inv_sqrt]
    rw [hqmod, hq8, ← hzdef, hzs]
  rw [heq]
  exact ⟨hx1, hx2⟩

/-! ### C2: `int_sqrt` is the floor square root -/

/-- C2: for every 32-bit `a`, `int_sqrt a` squared is at most `a` while its
successor squared exceeds `a`; and the four documented sample values hold. -/
theorem int_sqrt_correct (a : ℕ) (ha : a < 2 ^ 32) :
    (int_sqrt a * int_sqrt a ≤ a ∧ a < (int_sqrt a + 1) * (int_sqrt a + 1)) ∧
      int_sqrt 0 = 0 ∧ int_sqrt 1 = 1 ∧ int_sqrt 99 = 9 ∧
      int_sqrt 4294836225 = 65535 :=
  ⟨int_sqrt_bracket a ha, by decide, by decide, by decide, by decide⟩

/-- Witness for `int_sqrt_correct` at `a = 99`. -/
theorem int_sqrt_correct_witness :
    (99 : ℕ) < 2 ^ 32 ∧ int_sqrt 99 * int_sqrt 99 ≤ 99 :=
  ⟨by norm_num, (int_sqrt_correct 99 (by norm_num)).1.1⟩

/-! ### C4: maximality of `int_inv_sqrt` against `(0xFFFF / a) << 8` -/

/-- C4: for 16-bit `a > 0`, `int_inv_sqrt a` squared is at most
`(0xFFFF / a) << 8`, and it is the largest natural number with that
property. -/
theorem int_inv_sqrt_maximal (a : ℕ) (ha0 : 0 < a) (ha : a < 2 ^ 16) :
    int_inv_sqrt a * int_inv_sqrt a ≤ (65535 / a) <<< 8 ∧
      ∀ y : ℕ, y * y ≤ (65535 / a) <<< 8 → y ≤ int_inv_sqrt a := by
  have hs : (65535 / a) <<< 8 = 65535 / a * 2 ^ 8 := Nat.shiftLeft_eq _ _
  obtain ⟨h1, h2⟩ := int_inv_sqrt_bracket a ha0
  rw [hs]
  refine ⟨h1, fun y hy => ?_⟩
  by_contra hcon
  push_neg at hcon
  have hsq : (int_inv_sqrt a + 1) * (int_inv_sqrt a + 1) ≤ y * y :=
    Nat.mul_le_mul hcon hcon
  omega

/-- Witness for `int_inv_sqrt_maximal` at `a = 4`. -/
theorem int_inv_sqrt_maximal_witness :
    (0 : ℕ) < 4 ∧ (4 : ℕ) < 2 ^ 16 ∧
      int_inv_sqrt 4 * int_inv_sqrt 4 ≤ (65535 / 4) <<< 8 :=
  ⟨by norm_num, by norm_num, (int_inv_sqrt_maximal 4 (by norm_num) (by norm_num)).1⟩

/-! ### C3: the real-valued bracket for `int_inv_sqrt` -/

/-- C3 counterexample: at `a = 1` the code returns `int_inv_sqrt 1 = 4095`
(the floor square root of `(0xFFFF / 1) << 8 = 16776960`), but the claimed
lower bound demands `4096 / √1 - 1 = 4095 < 4095`, which is false.  (The
failure is not only at this boundary: e.g. `int_inv_sqrt 32768 = 16` while
`4096 / √32768 ≈ 22.6`.) -/
theorem int_inv_sqrt_cex :
    int_inv_sqrt 1 = 4095 ∧
      ¬ ((4096 : ℝ) / Real.sqrt 1 - 1 < (int_inv_sqrt 1 : ℝ)) := by
  have h : int_inv_sqrt 1 = 4095 := by decide
  refine ⟨h, ?_⟩
  rw [h, Real.sqrt_one]
  push_cast
  norm_num

/-- C3 (amended): for 16-bit `a > 0`, `int_inv_sqrt a` never exceeds
`4096 / √a`, and it is exactly the floor square root of `(0xFFFF / a) << 8`;
the claimed lower bound `4096 / √a - 1 < int_inv_sqrt a` does not hold in
general. -/
theorem int_inv_sqrt_amended (a : ℕ) (ha0 : 0 < a) (ha : a < 2 ^ 16) :
    (int_inv_sqrt a : ℝ) ≤ 4096 / Real.sqrt a ∧
      int_inv_sqrt a * int_inv_sqrt a ≤ (65535 / a) <<< 8 ∧
      (65535 / a) <<< 8 < (int_inv_sqrt a + 1) * (int_inv_sqrt a + 1) := by
  obtain ⟨h1, h2⟩ := int_inv_sqrt_bracket a ha0
  have hs : (65535 / a) <<< 8 = 65535 / a * 2 ^ 8 := Nat.shiftLeft_eq _ _
  refine ⟨?_, by rw [hs]; exact h1, by rw [hs]; exact h2⟩
  set x := int_inv_sqrt a with hx
  have hbound : x * x * a ≤ 4096 * 4096 := by
    have hA : 65535 / a * a ≤ 65535 := Nat.div_mul_le_self _ _
    calc x * x * a ≤ 65535 / a * 2 ^ 8 * a := Nat.mul_le_mul_right _ h1
    _ = 65535 / a * a * 2 ^ 8 := by ring
    _ ≤ 65535 * 2 ^ 8 := Nat.mul_le_mul_right _ hA
    _ ≤ 4096 * 4096 := by norm_num
  have hsq_pos : (0 : ℝ) < Real.sqrt a := Real.sqrt_pos.mpr (by exact_mod_cast ha0)
  rw [le_div_iff hsq_pos]
  have hxa : (x : ℝ) * Real.sqrt a = Real.sqrt ((x * x * a : ℕ) : ℝ) := by
    rw [show ((x * x * a : ℕ) : ℝ) = (x : ℝ) * (x : ℝ) * (a : ℝ) by push_cast; ring]
    rw [Real.sqrt_mul (by positivity) (a : ℝ)]
    rw [show (x : ℝ) * (x : ℝ) = (x : ℝ) ^ 2 by ring, Real.sqrt_sq (by positivity)]
  rw [hxa]
  calc Real.sqrt ((x * x * a : ℕ) : ℝ) ≤ Real.sqrt ((4096 * 4096 : ℝ)) := by
        apply Real.sqrt_le_sqrt; exact_mod_cast hbound
  _ = 4096 := by
        rw [show (4096 * 4096 : ℝ) = 4096 ^ 2 by ring, Real.sqrt_sq (by norm_num)]

/-- Witness for `int_inv_sqrt_amended` at `a = 4`. -/
theorem int_inv_sqrt_amended_witness :
    (0 : ℕ) < 4 ∧ (4 : ℕ) < 2 ^ 16 ∧ (int_inv_sqrt 4 : ℝ) ≤ 4096 / Real.sqrt 4 :=
  ⟨by norm_num, by norm_num, (int_inv_sqrt_amended 4 (by norm_num) (by norm_num)).1⟩

/-! ### Exactness of the `muldivQR` loop -/

/-- When none of the `uint32_t` operations of one loop iteration wraps, the
step function is plain arithmetic. -/
lemma mdStep_eq (d m qn rn q r : ℕ)
    (h1 : q + qn + 1 < 2 ^ 32) (h2 : r + rn < 2 ^ 32)
    (h3 : 2 * qn + 1 < 2 ^ 32) (h4 : 2 * rn < 2 ^ 32) :
    mdStep d m qn rn q r =
      (m / 2,
       (if 2 * rn ≥ d then 2 * qn + 1 else 2 * qn),
       (if 2 * rn ≥ d then 2 * rn - d else 2 * rn),
       (if m % 2 = 1 then (if r + rn ≥ d then q + qn + 1 else q + qn) else q),
       (if m % 2 = 1 then (if r + rn ≥ d then r + rn - d else r + rn) else r)) := by
  have e1 : m >>> 1 = m / 2 := by
    rw [Nat.shiftRight_eq_div_pow]
    try norm_num
  have e2 : (qn <<< 1) % 2 ^ 32 = 2 * qn := by
    rw [Nat.shiftLeft_eq]
    have e : qn * 2 ^ 1 = 2 * qn := by ring
    rw [e]
    exact Nat.mod_eq_of_lt (by omega)
  have e3 : (rn <<< 1) % 2 ^ 32 = 2 * rn := by
    rw [Nat.shiftLeft_eq]
    have e : rn * 2 ^ 1 = 2 * rn := by ring
    rw [e]
    exact Nat.mod_eq_of_lt (by omega)
  have e4 : (q + qn) % 2 ^ 32 = q + qn := Nat.mod_eq_of_lt (by omega)
  have e5 : (r + rn) % 2 ^ 32 = r + rn := Nat.mod_eq_of_lt (by omega)
  have e6 : (q + qn + 1) % 2 ^ 32 = q + qn + 1 := Nat.mod_eq_of_lt (by omega)
  have e7 : (2 * qn + 1) % 2 ^ 32 = 2 * qn + 1 := Nat.mod_eq_of_lt (by omega)
  by_cases hodd : m % 2 = 1 <;> by_cases hca : r + rn ≥ d <;>
    by_cases hcb : 2 * rn ≥ d <;>
    (simp only [mdStep, e1, e2, e3, e4, e5, e6, e7]; try simp [hodd, hca, hcb])

/-- Exactness of the `muldivQR` loop: if `(qn, rn)` represents the value `V`
and `(quotient, remainder)` the value `W` against the divisor `d`, and the
total `W + m * V` stays below `2 ^ 31`, then no `uint32_t` operation wraps and
the loop returns the exact quotient/remainder pair of `W + m * V` by `d`. -/
lemma mdLoop_spec (d : ℕ) (hd : 0 < d) :
    ∀ fuel m qn rn q r V W : ℕ, m < 2 ^ fuel →
      qn * d + rn = V → rn < d → q * d + r = W → r < d →
      W + m * V ≤ 2147483647 →
      (mdLoop d fuel m qn rn q r).1 * d + (mdLoop d fuel m qn rn q r).2 = W + m * V ∧
        (mdLoop d fuel m qn rn q r).2 < d := by
  intro fuel
  induction fuel with
  | zero =>
    intro m qn rn q r V W hm hqn hrn hq hr hT
    have hm0 : m = 0 := by omega
    subst hm0
    simp only [mdLoop]
    constructor
    · simpa using hq
    · simpa using hr
  | succ fuel ih =>
    intro m qn rn q r V W hm hqn hrn hq hr hT
    by_cases hm0 : m = 0
    · subst hm0
      simp only [mdLoop, if_pos rfl]
      constructor
      · simpa using hq
      · simpa using hr
    · have hpos : 0 < m := Nat.pos_of_ne_zero hm0
      have e32 : (2 : ℕ) ^ 32 = 4294967296 := by norm_num
      -- linear consequences of the representation equations
      have hqd : qn * 1 ≤ qn * d := Nat.mul_le_mul_left qn hd
      have hqd2 : q * 1 ≤ q * d := Nat.mul_le_mul_left q hd
      have hVm : 1 * V ≤ m * V := Nat.mul_le_mul_right V hpos
      have hqnle : qn ≤ V := by omega
      have hrnle : rn ≤ V := by omega
      have hqle : q ≤ W := by omega
      have hrle : r ≤ W := by omega
      have h1 : q + qn + 1 < 2 ^ 32 := by omega
      have h2 : r + rn < 2 ^ 32 := by omega
      have h3 : 2 * qn + 1 < 2 ^ 32 := by omega
      have h4 : 2 * rn < 2 ^ 32 := by omega
      have hpow : (2 : ℕ) ^ (fuel + 1) = 2 * 2 ^ fuel := by rw [Nat.pow_succ]; ring
      have hdm := Nat.div_add_mod m 2
      simp only [mdLoop, if_neg hm0]
      rw [mdStep_eq d m qn rn q r h1 h2 h3 h4]
      dsimp only
      have hm2 : m / 2 < 2 ^ fuel := by omega
      rcases Nat.mod_two_eq_zero_or_one m with hodd | hodd
      · -- m even: no addition this iteration
        have hmeq : m = 2 * (m / 2) := by omega
        have hWV : W + m / 2 * (2 * V) = W + m * V := by
          rw [show m * V = 2 * (m / 2) * V from by rw [← hmeq]]
          ring
        have hno : ¬ m % 2 = 1 := by omega
        rw [if_neg hno, if_neg hno]
        by_cases hcb : 2 * rn ≥ d
        · rw [if_pos hcb, if_pos hcb]
          have hqn' : (2 * qn + 1) * d + (2 * rn - d) = 2 * V := by
            have e : (2 * qn + 1) * d = 2 * (qn * d) + d := by ring
            omega
          have hres := ih (m / 2) (2 * qn + 1) (2 * rn - d) q r (2 * V) W hm2
            hqn' (by omega) hq hr (by rw [hWV]; exact hT)
          rw [← hWV]
          exact hres
        · rw [if_neg hcb, if_neg hcb]
          have hqn' : 2 * qn * d + 2 * rn = 2 * V := by
            have e : 2 * qn * d = 2 * (qn * d) := by ring
            omega
          have hres := ih (m / 2) (2 * qn) (2 * rn) q r (2 * V) W hm2
            hqn' (by omega) hq hr (by rw [hWV]; exact hT)
          rw [← hWV]
          exact hres
      · -- m odd: add (qn, rn) and normalize
        have hmeq : m = 2 * (m / 2) + 1 := by omega
        have hWV : W + V + m / 2 * (2 * V) = W + m * V := by
          rw [show m * V = (2 * (m / 2) + 1) * V from by rw [← hmeq]]
          ring
        rw [if_pos hodd, if_pos hodd]
        have hq1 : ∀ q1 r1 : ℕ, q1 * d + r1 = W + V → r1 < d →
            ∀ qn1 rn1 : ℕ, qn1 * d + rn1 = 2 * V → rn1 < d →
            (mdLoop d fuel (m / 2) qn1 rn1 q1 r1).1 * d +
                (mdLoop d fuel (m / 2) qn1 rn1 q1 r1).2 = W + m * V ∧
              (mdLoop d fuel (m / 2) qn1 rn1 q1 r1).2 < d := by
          intro q1 r1 hq1 hr1 qn1 rn1 hqn1 hrn1
          have hres := ih (m / 2) qn1 rn1 q1 r1 (2 * V) (W + V) hm2
            hqn1 hrn1 hq1 hr1 (by rw [hWV]; exact hT)
          rw [← hWV]
          exact hres
        by_cases hca : r + rn ≥ d <;> by_cases hcb : 2 * rn ≥ d
        · rw [if_pos hca, if_pos hca, if_pos hcb, if_pos hcb]
          refine hq1 (q + qn + 1) (r + rn - d) ?_ (by omega) (2 * qn + 1) (2 * rn - d) ?_ (by omega)
          · have e : (q + qn + 1) * d = q * d + qn * d + d := by ring
            omega
          · have e : (2 * qn + 1) * d = 2 * (qn * d) + d := by ring
            omega
        · rw [if_pos hca, if_pos hca, if_neg hcb, if_neg hcb]
          refine hq1 (q + qn + 1) (r + rn - d) ?_ (by omega) (2 * qn) (2 * rn) ?_ (by omega)
          · have e : (q + qn + 1) * d = q * d + qn * d + d := by ring
            omega
          · have e : 2 * qn * d = 2 * (qn * d) := by ring
            omega
        · rw [if_neg hca, if_neg hca, if_pos hcb, if_pos hcb]
          refine hq1 (q + qn) (r + rn) ?_ (by omega) (2 * qn + 1) (2 * rn - d) ?_ (by omega)
          · have e : (q + qn) * d = q * d + qn * d := by ring
            omega
          · have e : (2 * qn + 1) * d = 2 * (qn * d) + d := by ring
            omega
        · rw [if_neg hca, if_neg hca, if_neg hcb, if_neg hcb]
          refine hq1 (q + qn) (r + rn) ?_ (by omega) (2 * qn) (2 * rn) ?_ (by omega)
          · have e : (q + qn) * d = q * d + qn * d := by ring
            omega
          · have e : 2 * qn * d = 2 * (qn * d) := by ring
            omega

/-- Rounding never strays from the floor by more than one. -/
lemma round_bracket (x : ℚ) : ⌊x⌋ ≤ round x ∧ round x ≤ ⌊x⌋ + 1 := by
  rw [round_eq]
  constructor
  · exact Int.floor_mono (by linarith)
  · calc ⌊x + 1 / 2⌋ ≤ ⌊x + 1⌋ := Int.floor_mono (by linarith)
    _ = ⌊x⌋ + 1 := Int.floor_add_one x

/-- An integer `v` with `(v - 1)·d ≤ n < (v + 1)·d` is within one of the
rounded quotient `n / d`. -/
lemma near_round (n : ℤ) (d : ℕ) (v : ℤ) (hd : 0 < d)
    (h1 : (v - 1) * (d : ℤ) ≤ n) (h2 : n < (v + 1) * (d : ℤ)) :
    |v - round ((n : ℚ) / (d : ℚ))| ≤ 1 := by
  have hd0 : (0 : ℚ) < (d : ℚ) := by exact_mod_cast hd
  obtain ⟨hr1, hr2⟩ := round_bracket ((n : ℚ) / (d : ℚ))
  have hub : v ≤ ⌊(n : ℚ) / (d : ℚ)⌋ + 1 := by
    have hle : (v - 1 : ℤ) ≤ ⌊(n : ℚ) / (d : ℚ)⌋ := by
      rw [Int.le_floor, le_div_iff₀ hd0]
      push_cast
      exact_mod_cast h1
    omega
  have hlb : ⌊(n : ℚ) / (d : ℚ)⌋ ≤ v := by
    have hfe : ((⌊(n : ℚ) / (d : ℚ)⌋ : ℤ) : ℚ) ≤ (n : ℚ) / (d : ℚ) := Int.floor_le _
    have he2 : (n : ℚ) / (d : ℚ) < ((v + 1 : ℤ) : ℚ) := by
      rw [div_lt_iff₀ hd0]
      push_cast
      exact_mod_cast h2
    have hq : ((⌊(n : ℚ) / (d : ℚ)⌋ : ℤ) : ℚ) < ((v + 1 : ℤ) : ℚ) := lt_of_le_of_lt hfe he2
    have : ⌊(n : ℚ) / (d : ℚ)⌋ < v + 1 := by exact_mod_cast hq
    omega
  rw [abs_le]
  omega

/-! ### C1: `muldivQR` computes the rounded scaled product -/

/-- C1: under the documented preconditions (`divisor ≠ 0`, `qn`, `rn` the
quotient and remainder of a `multiplier` by `divisor`, all of `multiplier`,
`divisor`, `m` and the product `m * multiplier` representable in 32 bits),
`muldivQR` returns the rounded value of `m * multiplier / divisor` to within
one unit of exact rounding.  (The boundary product `m * multiplier = -2^31`
is excluded: there the C negation of the 32-bit quotient would overflow.) -/
theorem muldivQR_correct (m : ℤ) (multiplier qn rn divisor : ℕ)
    (hdvz : divisor ≠ 0) (hd32 : divisor < 2 ^ 32) (hmu32 : multiplier < 2 ^ 32)
    (hqn : qn = multiplier / divisor) (hrn : rn = multiplier % divisor)
    (hmlo : -(2 ^ 31) ≤ m) (hmhi : m < 2 ^ 31)
    (hprod : m.natAbs * multiplier < 2 ^ 31) :
    |muldivQR m qn rn divisor -
        round (((m * multiplier : ℤ) : ℚ) / ((divisor : ℕ) : ℚ))| ≤ 1 := by
  have hdpos : 0 < divisor := Nat.pos_of_ne_zero hdvz
  have hrep : qn * divisor + rn = multiplier := by
    subst hqn hrn
    rw [Nat.mul_comm]
    exact Nat.div_add_mod multiplier divisor
  have hrnlt : rn < divisor := by rw [hrn]; exact Nat.mod_lt _ hdpos
  have e31 : (2 : ℕ) ^ 31 = 2147483648 := by norm_num
  have e32 : (2 : ℕ) ^ 32 = 4294967296 := by norm_num
  have habs32 : m.natAbs < 2 ^ 32 := by
    have e31' : (2 : ℤ) ^ 31 = 2147483648 := by norm_num
    omega
  obtain ⟨hQR, hRlt⟩ := mdLoop_spec divisor hdpos 32 m.natAbs qn rn 0 0 multiplier 0
    habs32 hrep hrnlt (by simp) hdpos (by omega)
  simp only [muldivQR]
  set Q := (mdLoop divisor 32 m.natAbs qn rn 0 0).1 with hQdef
  set R := (mdLoop divisor 32 m.natAbs qn rn 0 0).2 with hRdef
  have hQR' : Q * divisor + R = m.natAbs * multiplier := by omega
  have hQd : Q * 1 ≤ Q * divisor := Nat.mul_le_mul_left Q hdpos
  have hQle : Q ≤ 2147483647 := by omega
  have hmod : (Q + 1) % 2 ^ 32 = Q + 1 := Nat.mod_eq_of_lt (by omega)
  rw [hmod]
  -- the exact signed product as a multiple of the divisor
  have hcast : ((Q * divisor + R : ℕ) : ℤ) = (Q : ℤ) * (divisor : ℤ) + (R : ℤ) := by
    push_cast; ring
  have hRlt' : (R : ℤ) < (divisor : ℤ) := by exact_mod_cast hRlt
  have hd0' : (0 : ℤ) < (divisor : ℤ) := by exact_mod_cast hdpos
  by_cases hneg : m < 0
  · have hmeq : m = -(m.natAbs : ℤ) := by omega
    have hn : (m * multiplier : ℤ) = -((Q : ℤ) * (divisor : ℤ) + (R : ℤ)) := by
      rw [← hcast, hQR']
      push_cast
      conv_lhs => rw [hmeq]
      rw [Int.abs_eq_natAbs]
      try ring
    rw [if_pos hneg]
    by_cases hro : R > divisor / 2
    · rw [if_pos hro]
      have hR0 : 0 < R := by omega
      have hR0' : (0 : ℤ) < (R : ℤ) := by exact_mod_cast hR0
      apply near_round (m * multiplier) divisor (-((Q + 1 : ℕ) : ℤ)) hdpos
      · rw [hn]
        have e : (-((Q + 1 : ℕ) : ℤ) - 1) * (divisor : ℤ)
            = -((Q : ℤ) * divisor) - 2 * divisor := by push_cast; ring
        rw [e]
        omega
      · rw [hn]
        have e : (-((Q + 1 : ℕ) : ℤ) + 1) * (divisor : ℤ) = -((Q : ℤ) * divisor) := by
          push_cast; ring
        rw [e]
        omega
    · rw [if_neg hro]
      apply near_round (m * multiplier) divisor (-(Q : ℤ)) hdpos
      · rw [hn]
        have e : (-(Q : ℤ) - 1) * (divisor : ℤ) = -((Q : ℤ) * divisor) - divisor := by
          ring
        rw [e]
        omega
      · rw [hn]
        have e : (-(Q : ℤ) + 1) * (divisor : ℤ) = -((Q : ℤ) * divisor) + divisor := by
          ring
        rw [e]
        omega
  · have hmeq : m = (m.natAbs : ℤ) := by omega
    have hn : (m * multiplier : ℤ) = (Q : ℤ) * (divisor : ℤ) + (R : ℤ) := by
      rw [← hcast, hQR']
      push_cast
      conv_lhs => rw [hmeq]
      rw [Int.abs_eq_natAbs]
      try ring
    rw [if_neg hneg]
    by_cases hro : R > divisor / 2
    · rw [if_pos hro]
      apply near_round (m * multiplier) divisor ((Q + 1 : ℕ) : ℤ) hdpos
      · rw [hn]
        have e : (((Q + 1 : ℕ) : ℤ) - 1) * (divisor : ℤ) = (Q : ℤ) * divisor := by
          push_cast; ring
        rw [e]
        omega
      · rw [hn]
        have e : (((Q + 1 : ℕ) : ℤ) + 1) * (divisor : ℤ)
            = (Q : ℤ) * divisor + 2 * divisor := by push_cast; ring
        rw [e]
        omega
    · rw [if_neg hro]
      apply near_round (m * multiplier) divisor ((Q : ℕ) : ℤ) hdpos
      · rw [hn]
        have e : (((Q : ℕ) : ℤ) - 1) * (divisor : ℤ) = (Q : ℤ) * divisor - divisor := by
          ring
        rw [e]
        omega
      · rw [hn]
        have e : (((Q : ℕ) : ℤ) + 1) * (divisor : ℤ) = (Q : ℤ) * divisor + divisor := by
          ring
        rw [e]
        omega

/-- Witness for `muldivQR_correct`: `m = 5`, `multiplier = 7`, `divisor = 3`
(`qn = 2`, `rn = 1`); the code returns `12 = round (35 / 3)`. -/
theorem muldivQR_correct_witness :
    (3 : ℕ) ≠ 0 ∧ |muldivQR 5 2 1 3 - round ((35 : ℚ) / 3)| ≤ 1 := by
  constructor
  · norm_num
  · have h := muldivQR_correct 5 7 2 1 3 (by norm_num) (by norm_num) (by norm_num)
      (by norm_num) (by norm_num) (by norm_num) (by norm_num) (by norm_num)
    norm_num at h ⊢
    exact h

/-! ### C8: the remainder invariant of the `muldivQR` loop -/

/-- C8: `remainder < divisor` is preserved by every iteration of the
`muldivQR` loop (both the accumulator remainder and the shifted `rn` stay
below the divisor after their normalization steps), and it holds at loop
exit.  The preconditions are a nonzero divisor, `rn`/`remainder` already
below the divisor, and no accumulator overflow in the iteration. -/
theorem muldivQR_remainder_invariant :
    (∀ d m qn rn q r : ℕ, 0 < d → rn < d → r < d →
        q + qn + 1 < 2 ^ 32 → r + rn < 2 ^ 32 →
        2 * qn + 1 < 2 ^ 32 → 2 * rn < 2 ^ 32 →
        (mdStep d m qn rn q r).2.2.2.2 < d ∧ (mdStep d m qn rn q r).2.2.1 < d) ∧
      (∀ d fuel m qn rn q r V W : ℕ, 0 < d → m < 2 ^ fuel →
        qn * d + rn = V → rn < d → q * d + r = W → r < d →
        W + m * V ≤ 2147483647 →
        (mdLoop d fuel m qn rn q r).2 < d) := by
  constructor
  · intro d m qn rn q r hd hrn hr h1 h2 h3 h4
    rw [mdStep_eq d m qn rn q r h1 h2 h3 h4]
    dsimp only
    constructor
    · split_ifs <;> omega
    · split_ifs <;> omega
  · intro d fuel m qn rn q r V W hd hm hqn hrn hq hr hT
    exact (mdLoop_spec d hd fuel m qn rn q r V W hm hqn hrn hq hr hT).2

/-- Witness for `muldivQR_remainder_invariant`: one step at divisor `3`,
state `(5, 2, 1, 0, 0)`. -/
theorem muldivQR_remainder_invariant_witness :
    (0 : ℕ) < 3 ∧ (mdStep 3 5 2 1 0 0).2.2.2.2 < 3 :=
  ⟨by norm_num,
    (muldivQR_remainder_invariant.1 3 5 2 1 0 0 (by norm_num) (by norm_num)
      (by norm_num) (by norm_num) (by norm_num) (by norm_num) (by norm_num)).1⟩

/-! ### C5: `int_sqr` -/

/-- C5: the claim "`int_sqr(a)` equals the exact product `a*a` as a 64-bit
result, with no overflow, for every signed 32-bit `a`" fails: the source
computes `a * a` in `int32_t` and only then widens, so at `a = 65536` the
product `2 ^ 32` wraps to `0` instead of the exact `4294967296`. -/
theorem int_sqr_bug :
    int_sqr 65536 = 0 ∧ (65536 * 65536 : ℤ) = 4294967296 ∧
      int_sqr 65536 ≠ 65536 * 65536 := by
  refine ⟨by decide, by norm_num, by decide⟩

/-! ### C6: `approx_distance_3` permutation symmetry -/

/-- C6: the claim "`approx_distance_3` is invariant under every permutation of
its arguments" fails on the code: the first comparison ladder stores the larger
of `dx, dy` in `min` and the smaller in `med`, so the ranked weighted sum uses
wrongly sorted values.  Concretely the permuted inputs `(100, 0, 100)` and
`(100, 100, 0)` give `124` and `138`. -/
theorem approx_distance_3_bug :
    approx_distance_3 100 0 100 = 124 ∧ approx_distance_3 100 100 0 = 138 ∧
      approx_distance_3 100 0 100 ≠ approx_distance_3 100 100 0 := by
  refine ⟨by decide, by decide, by decide⟩

/-! ### C7: monotonicity of `acc_ramp_len` in the feedrate -/

/-- C7 counterexample: `acc_ramp_len` is not monotone over all 32-bit
feedrates: `feedrate * feedrate` is a `uint32_t` product, so at feedrate
`65536` it wraps to `0` (with `ACCELERATION = 10`, `steps_per_m = 2000`,
the ramp length drops from `119301` at feedrate `65535` to `0`). -/
theorem acc_ramp_len_cex :
    (65535 : ℕ) ≤ 65536 ∧ acc_ramp_len 10 65536 2000 < acc_ramp_len 10 65535 2000 :=
  ⟨by norm_num, by decide⟩

/-- C7 (amended): `acc_ramp_len` is monotonically non-decreasing in the
feedrate, for fixed `steps_per_m` and fixed acceleration, on the range of
feedrates whose square fits in 32 bits (`feedrate ≤ 65535`). -/
theorem acc_ramp_len_monotone (accel steps f1 f2 : ℕ) (h12 : f1 ≤ f2)
    (hf2 : f2 ≤ 65535) :
    acc_ramp_len accel f1 steps ≤ acc_ramp_len accel f2 steps := by
  unfold acc_ramp_len
  have h2 : f2 * f2 < 2 ^ 32 := by
    calc f2 * f2 ≤ 65535 * 65535 := Nat.mul_le_mul hf2 hf2
    _ < 2 ^ 32 := by norm_num
  have h1 : f1 * f1 < 2 ^ 32 :=
    lt_of_le_of_lt (Nat.mul_le_mul h12 h12) h2
  rw [Nat.mod_eq_of_lt h1, Nat.mod_eq_of_lt h2]
  exact Nat.div_le_div_right (Nat.mul_le_mul h12 h12)

/-- Witness for `acc_ramp_len_monotone` at a concrete instance. -/
theorem acc_ramp_len_monotone_witness :
    (100 : ℕ) ≤ 200 ∧ (200 : ℕ) ≤ 65535 ∧
      acc_ramp_len 10 100 2000 ≤ acc_ramp_len 10 200 2000 :=
  ⟨by norm_num, by norm_num, acc_ramp_len_monotone 10 2000 100 200 (by norm_num) (by norm_num)⟩

/-! ### C9: zero-axis short circuit of `approx_distance` -/

/-- C9: if either input is zero, `approx_distance` returns exactly `dx + dy`
(the other component); in particular `approx_distance 0 7 = 7`. -/
theorem approx_distance_zero_axis :
    (∀ dx dy : ℕ, dx < 2 ^ 32 → dy < 2 ^ 32 → dx = 0 ∨ dy = 0 →
      approx_distance dx dy = dx + dy) ∧ approx_distance 0 7 = 7 := by
  constructor
  · intro dx dy hdx hdy h
    unfold approx_distance
    rw [if_pos h]
    apply Nat.mod_eq_of_lt
    rcases h with rfl | rfl
    · simpa using hdy
    · simpa using hdx
  · decide

/-- Witness for `approx_distance_zero_axis` at `(0, 7)`. -/
theorem approx_distance_zero_axis_witness :
    (0 : ℕ) < 2 ^ 32 ∧ (7 : ℕ) < 2 ^ 32 ∧ approx_distance 0 7 = 0 + 7 :=
  ⟨by norm_num, by norm_num,
    approx_distance_zero_axis.1 0 7 (by norm_num) (by norm_num) (Or.inl rfl)⟩

/-! ### C10: commutativity of `approx_distance` -/

/-- C10: `approx_distance` is commutative on 32-bit inputs. -/
theorem approx_distance_comm (dx dy : ℕ) (hdx : dx < 2 ^ 32) (hdy : dy < 2 ^ 32) :
    approx_distance dx dy = approx_distance dy dx := by
  by_cases hz : dx = 0 ∨ dy = 0
  · have hz' : dy = 0 ∨ dx = 0 := hz.symm
    simp only [approx_distance, if_pos hz, if_pos hz', Nat.add_comm]
  · have hz' : ¬(dy = 0 ∨ dx = 0) := fun h => hz h.symm
    rcases Nat.lt_trichotomy dx dy with hlt | rfl | hgt
    · have h1 : ¬ dy < dx := Nat.lt_asymm hlt
      simp only [approx_distance, if_neg hz, if_neg hz', if_pos hlt, if_neg h1]
    · rfl
    · have h1 : ¬ dx < dy := Nat.lt_asymm hgt
      simp only [approx_distance, if_neg hz, if_neg hz', if_pos hgt, if_neg h1]

/-- Witness for `approx_distance_comm` at `(3, 4)`. -/
theorem approx_distance_comm_witness :
    (3 : ℕ) < 2 ^ 32 ∧ (4 : ℕ) < 2 ^ 32 ∧ approx_distance 3 4 = approx_distance 4 3 :=
  ⟨by norm_num, by norm_num, approx_distance_comm 3 4 (by norm_num) (by norm_num)⟩

end DdaMaths
